import Mathlib

/-!
A verification development for the `personal-finances` repository.

The Python sources are shallowly embedded:
* `rules_engine.py` — categories, rules, condition evaluation and
  `classify_item` (first-match-wins with a catch-all).
* `finance_cleaner.py` / `csv_reader.py` — boolean-flag normalisation,
  amount parsing, row hashing (SHA-256, 5-hex-char prefix), row-identifier
  assignment, `coalesce_duplicates` (groupby + sum/first aggregation) and
  `remove_duplicates` (keep-first per key).

Pandas frames are modelled as a schema (`List Col`) plus rows
(`List (List Cell)`); cells are either numeric (`Rat`, modelling the float
values) or strings.  Machine integers inside SHA-256 are `Nat` reduced
`% 2 ^ 32` at every step.
-/

/-! ## Values and Python-style items (dicts) -/

/-- A cell/value of a transaction field: a number (pandas numeric dtype,
modelled as `Rat`) or a string (object dtype). -/
inductive Cell where
  | num (q : Rat)
  | str (s : String)
deriving DecidableEq

instance : BEq Cell := ⟨fun a b => decide (a = b)⟩

theorem Cell.beq_iff {a b : Cell} : (a == b) = true ↔ a = b := by
  simp [BEq.beq]

/-- A transaction item as handed to the rule engine: a Python dict,
modelled as an association list from field name to value. -/
abbrev Item := List (String × Cell)

/-- The Python exceptions that `Rule.apply_condition` catches. -/
inductive PyErr where
  | keyError
  | typeError
  | attributeError
deriving DecidableEq

/-! ## rules_engine.py : Category -/

/-- The `Category` enum of `rules_engine.py`. -/
inductive Category where
  | GROCERIES
  | RESTAURANTS
  | SALARY
  | ELECTRICITY
  | SAVINGS
  | RIDESHARE
  | UNCATEGORIZED
deriving DecidableEq

/-- The string value of each `Category` member. -/
def Category.value : Category → String
  | .GROCERIES => "Groceries"
  | .RESTAURANTS => "Restaurants"
  | .SALARY => "Salary"
  | .ELECTRICITY => "Electricity"
  | .SAVINGS => "Savings"
  | .RIDESHARE => "Rideshare"
  | .UNCATEGORIZED => "Uncategorized"

/-! ## rules_engine.py : predicates -/

/-- `RuleEngine.is_category_equal`: `item["Category"] == candidate`.
A missing key raises `KeyError`; comparing a non-string value with the
candidate string yields `False` (Python `==` across types). -/
def is_category_equal (item : Item) (candidate : String) : Except PyErr Bool :=
  match item.lookup "Category" with
  | none => .error .keyError
  | some v => .ok (v == Cell.str candidate)

/-- Substring containment on character lists (Python `substr in description`). -/
def listContains (sub : List Char) : List Char → Bool
  | [] => sub.isEmpty
  | c :: rest => sub.isPrefixOf (c :: rest) || listContains sub rest

/-- Python `str.lower()` (ASCII case folding, character by character;
defined over the character list so that it reduces in the kernel). -/
def strLower (s : String) : String := ⟨s.data.map Char.toLower⟩

/-- `RuleEngine.description_has(item, substr)`: defensive substring test on
the lower-cased description.  (Lower-casing is ASCII here; the rule set only
uses ASCII needles.) -/
def description_has (item : Item) (sub : String) : Bool :=
  if item.isEmpty then false
  else
    match item.lookup "Description" with
    | some (Cell.str d) =>
      if d = "" then false
      else if sub = "" then false
      else listContains (strLower sub).data (strLower d).data
    | _ => false

/-! ## rules_engine.py : rules and the engine -/

/-- A classification rule: description, condition (which may raise), and the
category assigned on a match. -/
structure Rule where
  description : String
  condition : Item → Except PyErr Bool
  category : Category

/-- `Rule.apply_condition`: evaluate the condition, converting a raised
`KeyError`/`TypeError`/`AttributeError` into a non-match (`False`). -/
def Rule.apply_condition (r : Rule) (item : Item) : Bool :=
  match r.condition item with
  | .ok b => b
  | .error _ => false

/-- `Rule.get_category`: the rule's category if the condition holds, else
`None`. -/
def Rule.get_category (r : Rule) (item : Item) : Option Category :=
  if r.apply_condition item then some r.category else none

/-- Condition of the "Ally HYSA" rule:
`lambda item: self.is_category_equal(item, "Transfers") and self.description_has("ALLY BANK DES")`.
Python's `and` short-circuits: a falsy/raising left side never reaches the
right side; when the left side is `True`, the call
`self.description_has("ALLY BANK DES")` is evaluated, and it raises
`TypeError` because the required positional argument `substr` is missing
(the string is bound to the `item` parameter). -/
def allyCond (item : Item) : Except PyErr Bool := do
  let b ← is_category_equal item "Transfers"
  if b then .error .typeError else pure false

/-- The ordered rule list built by `RuleEngine.__init__`. -/
def engineRules : List Rule :=
  [ ⟨"Keep groceries the same", fun item => is_category_equal item "Groceries",
      Category.GROCERIES⟩,
    ⟨"Keep dining the same", fun item => is_category_equal item "Restaurants/Dining",
      Category.RESTAURANTS⟩,
    ⟨"Keep utilities the same", fun item => is_category_equal item "Energy, Gas & Electric",
      Category.ELECTRICITY⟩,
    ⟨"Keep salary the same", fun item => is_category_equal item "Paycheck/Salary",
      Category.SALARY⟩,
    ⟨"Keep rideshare the same", fun item => is_category_equal item "Rideshare",
      Category.RIDESHARE⟩,
    ⟨"Ally HYSA", allyCond, Category.SAVINGS⟩,
    ⟨"Fallback: Uncategorized transactions", fun _ => .ok true,
      Category.UNCATEGORIZED⟩ ]

/-- The `for` loop of `RuleEngine.classify_item` over an arbitrary rule
list: first matching rule wins; the trailing `return Category.UNCATEGORIZED`
is the fall-through when no rule matched. -/
def classifyList : List Rule → Item → Category
  | [], _ => Category.UNCATEGORIZED
  | r :: rs, item =>
    match r.get_category item with
    | some c => c
    | none => classifyList rs item

/-- `RuleEngine.classify_item` with the engine's rule list. -/
def classify_item (item : Item) : Category := classifyList engineRules item

/-! ## Boolean-flag normalisation (two variants in the repository) -/

/-- `finance_cleaner._to_bool`, applied to one cell after `.astype(str)` and
`.str.lower()`.  The Python mapping also carries the *boolean* keys
`True`/`False`, but after `.str.lower()` every cell is a string, so those
keys can never match; unmapped strings become missing (`NaN`), and there is
no `fillna`. -/
def to_bool_cleaner (s : String) : Option Bool :=
  List.lookup (strLower s) [("yes", true), ("no", false), ("y", true), ("n", false)]

/-- The inline flag mapping of `csv_reader.read_transactions`:
`.astype(str).str.lower().map({...}).fillna(False)`. -/
def to_bool_reader (s : String) : Bool :=
  (List.lookup (strLower s)
    [("yes", true), ("y", true), ("true", true),
     ("no", false), ("n", false), ("false", false)]).getD false

/-! ## Amount normalisation (`_parse_amount`, identical in both modules) -/

/-- The character class `[$,\s]` of the first `str.replace` (ASCII
whitespace, matching `\s` on the data at hand). -/
def isStripped (c : Char) : Bool :=
  c == '$' || c == ',' || c == ' ' || c == '\t' || c == '\n' || c == '\r' ||
    c == '\x0b' || c == '\x0c'

/-- First step of `_parse_amount`: remove every `$`, `,` and whitespace
character. -/
def stripChars (s : String) : String := ⟨s.data.filter (fun c => !isStripped c)⟩

/-- Character class `[-\d.]` of the parenthetical-negative regex. -/
def parenAllowed (c : Char) : Bool := c == '-' || c == '.' || c.isDigit

/-- Second step of `_parse_amount`: the anchored regex replacement
`^\(([-\d.]+)\)$ -> -\1` (a fully parenthesised run of `[-\d.]` characters
becomes that run with a leading minus). -/
def parenFix (s : String) : String :=
  let l := s.data
  let mid := (l.drop 1).dropLast
  if l.head? == some '(' && l.getLast? == some ')' && !mid.isEmpty &&
      mid.all parenAllowed then
    ⟨'-' :: mid⟩
  else s

/-- Value of a digit run (most significant first). -/
def digitsVal (l : List Char) : Nat :=
  l.foldl (fun a c => a * 10 + (c.toNat - 48)) 0

/-- The plain-decimal fragment of `pd.to_numeric(..., errors="coerce")`:
an optional sign, then digits with at most one decimal point (at least one
digit overall); anything else — including exponents and other exotic float
syntax, which never arise here — is coerced to missing (`NaN`). -/
def parseUnsigned (l : List Char) : Option Rat :=
  match l.splitOn '.' with
  | [d] => if d ≠ [] && d.all Char.isDigit then some (mkRat (digitsVal d) 1) else none
  | [a, b] =>
    if (a ++ b) ≠ [] && a.all Char.isDigit && b.all Char.isDigit then
      some (mkRat (digitsVal (a ++ b)) (10 ^ b.length))
    else none
  | _ => none

/-- Numeric coercion of a cleaned amount string. -/
def to_numeric (s : String) : Option Rat :=
  match s.data with
  | '-' :: rest => (parseUnsigned rest).map Neg.neg
  | '+' :: rest => parseUnsigned rest
  | l => parseUnsigned l

/-- `_parse_amount` on a single cell: strip `[$,\s]`, rewrite a
parenthesised value to a leading minus, then coerce (unparseable ↦ missing). -/
def parse_amount (s : String) : Option Rat := to_numeric (parenFix (stripChars s))

example : parse_amount "($45.00)" = some (-45) := by decide
example : parse_amount "$1,234.56" = some (1234.56 : Rat) := by
  have h : parse_amount "$1,234.56" = some (mkRat 123456 100) := by decide
  rw [h]
  norm_num [Rat.mkRat_eq_divInt, Rat.divInt_eq_div]

/-! ## SHA-256 (`hashlib.sha256(...).hexdigest()`)

32-bit machine words are `Nat` values kept below `2 ^ 32` by reducing
`% 4294967296` after every operation. -/

/-- Truncate to a 32-bit word. -/
def w32 (n : Nat) : Nat := n % 4294967296

/-- 32-bit modular addition. -/
def wadd (a b : Nat) : Nat := (a + b) % 4294967296

/-- Right rotation of a 32-bit word. -/
def rotr (n x : Nat) : Nat := w32 ((x >>> n) ||| (x <<< (32 - n)))

/-- SHA-256 `Ch(x,y,z)`; bitwise complement is `xor` with `2^32 - 1`. -/
def shaCh (x y z : Nat) : Nat := (x &&& y) ^^^ ((x ^^^ 4294967295) &&& z)

/-- SHA-256 `Maj(x,y,z)`. -/
def shaMaj (x y z : Nat) : Nat := (x &&& y) ^^^ (x &&& z) ^^^ (y &&& z)

/-- SHA-256 `Σ0`. -/
def bigSigma0 (x : Nat) : Nat := rotr 2 x ^^^ rotr 13 x ^^^ rotr 22 x

/-- SHA-256 `Σ1`. -/
def bigSigma1 (x : Nat) : Nat := rotr 6 x ^^^ rotr 11 x ^^^ rotr 25 x

/-- SHA-256 `σ0`. -/
def smallSigma0 (x : Nat) : Nat := rotr 7 x ^^^ rotr 18 x ^^^ (x >>> 3)

/-- SHA-256 `σ1`. -/
def smallSigma1 (x : Nat) : Nat := rotr 17 x ^^^ rotr 19 x ^^^ (x >>> 10)

/-- The 64 SHA-256 round constants. -/
def shaK : List Nat :=
  [1116352408, 1899447441, 3049323471, 3921009573, 961987163,
   1508970993, 2453635748, 2870763221, 3624381080, 310598401,
   607225278, 1426881987, 1925078388, 2162078206, 2614888103,
   3248222580, 3835390401, 4022224774, 264347078, 604807628,
   770255983, 1249150122, 1555081692, 1996064986, 2554220882,
   2821834349, 2952996808, 3210313671, 3336571891, 3584528711,
   113926993, 338241895, 666307205, 773529912, 1294757372,
   1396182291, 1695183700, 1986661051, 2177026350, 2456956037,
   2730485921, 2820302411, 3259730800, 3345764771, 3516065817,
   3600352804, 4094571909, 275423344, 430227734, 506948616,
   659060556, 883997877, 958139571, 1322822218, 1537002063,
   1747873779, 1955562222, 2024104815, 2227730452, 2361852424,
   2428436474, 2756734187, 3204031479, 3329325298]

/-- The SHA-256 initial hash state. -/
def shaH0 : List Nat :=
  [1779033703, 3144134277, 1013904242, 2773480762,
   1359893119, 2600822924, 528734635, 1541459225]

/-- Big-endian byte expansion (`k` bytes). -/
def beBytes : Nat → Nat → List Nat
  | 0, _ => []
  | k + 1, n => beBytes k (n / 256) ++ [n % 256]

/-- SHA-256 message padding: `0x80`, zeros to 56 mod 64, 8-byte big-endian
bit length. -/
def padBytes (m : List Nat) : List Nat :=
  m ++ 0x80 :: (List.replicate ((119 - m.length % 64) % 64) 0 ++ beBytes 8 (8 * m.length))

/-- Pack bytes into big-endian 32-bit words. -/
def bytesToWords : List Nat → List Nat
  | a :: b :: c :: d :: rest => (((a * 256 + b) * 256 + c) * 256 + d) :: bytesToWords rest
  | _ => []

/-- Split a word list into 16-word blocks (fuel-driven so that it reduces in
the kernel). -/
def chunk16Fuel : Nat → List Nat → List (List Nat)
  | 0, _ => []
  | _, [] => []
  | f + 1, ws => ws.take 16 :: chunk16Fuel f (ws.drop 16)

/-- Split a word list into 16-word blocks. -/
def chunk16 (ws : List Nat) : List (List Nat) := chunk16Fuel ws.length ws

/-- Extend the 16-word block by `k` further schedule words. -/
def extendW (ws : List Nat) : Nat → List Nat
  | 0 => ws
  | k + 1 =>
    let prev := extendW ws k
    prev ++ [wadd (wadd (smallSigma1 (prev.getD (prev.length - 2) 0))
                        (prev.getD (prev.length - 7) 0))
                  (wadd (smallSigma0 (prev.getD (prev.length - 15) 0))
                        (prev.getD (prev.length - 16) 0))]

/-- The 64-word message schedule of a block. -/
def schedule (ws : List Nat) : List Nat := extendW ws 48

/-- One SHA-256 round on the 8-word working state. -/
def shaRound (st : List Nat) (kw : Nat × Nat) : List Nat :=
  match st with
  | [a, b, c, d, e, f, g, h] =>
    let t1 := wadd (wadd (wadd h (bigSigma1 e)) (wadd (shaCh e f g) kw.1)) kw.2
    let t2 := wadd (bigSigma0 a) (shaMaj a b c)
    [wadd t1 t2, a, b, c, wadd d t1, e, f, g]
  | _ => st

/-- Compress one 16-word block into the hash state. -/
def processBlock (H : List Nat) (blk : List Nat) : List Nat :=
  let st := ((shaK.zip (schedule blk)).foldl shaRound H)
  List.zipWith wadd H st

/-- SHA-256 of a byte list, as 8 32-bit words. -/
def sha256Words (msg : List Nat) : List Nat :=
  (chunk16 (bytesToWords (padBytes msg))).foldl processBlock shaH0

/-- Lower-case hex character of a nibble. -/
def hexChar (n : Nat) : Char := if n < 10 then Char.ofNat (48 + n) else Char.ofNat (87 + n)

/-- The 8 hex characters of a 32-bit word (fixed width). -/
def wordHexChars (w : Nat) : List Char :=
  (List.range 8).map (fun i => hexChar ((w >>> (28 - 4 * i)) % 16))

/-- Hex digest string of a word list. -/
def hexDigest (ws : List Nat) : String := ⟨(ws.map wordHexChars).flatten⟩

/-- UTF-8 encoding of a code point (Python `str.encode()`). -/
def utf8Encode (c : Nat) : List Nat :=
  if c < 128 then [c]
  else if c < 2048 then [192 + c / 64, 128 + c % 64]
  else if c < 65536 then [224 + c / 4096, 128 + (c / 64) % 64, 128 + c % 64]
  else [240 + c / 262144, 128 + (c / 4096) % 64, 128 + (c / 64) % 64, 128 + c % 64]

/-- UTF-8 bytes of a string. -/
def strBytes (s : String) : List Nat := (s.data.map (fun c => utf8Encode c.toNat)).flatten

/-- `hashlib.sha256(s.encode()).hexdigest()`. -/
def sha256hex (s : String) : String := hexDigest (sha256Words (strBytes s))

set_option maxRecDepth 100000 in
example : sha256hex "abc" =
    "ba7816bf8f01cfea414140de5dae2223b00361a396177a9cb410ff61f20015ad" := by decide

set_option maxRecDepth 100000 in
example : sha256hex "" =
    "e3b0c44298fc1c149afbf4c8996fb92427ae41e4649b934ca495991b7852b855" := by decide

/-! ## Row hashing (`_row_hash`) and row identifiers -/

/-- `_row_hash(row, include_source)`: join the row's stringified values in
column order (dropping the `SourceFile` column when `include_source` is
false), SHA-256 the joined string, keep the first 5 hex characters.  A row
is its list of `(column name, stringified value)` pairs in column order. -/
def row_hash (row : List (String × String)) (include_source : Bool) : String :=
  let cells := if include_source then row
               else row.filter (fun p => !(p.1 == "SourceFile"))
  (sha256hex (String.join (cells.map Prod.snd))).take 5

/-- Decimal digit characters of `n`, most significant first (fuel-driven so
that it reduces in the kernel; fuel `n` suffices). -/
def natCharsFuel : Nat → Nat → List Char
  | _, 0 => []
  | 0, _ => []
  | f + 1, n => natCharsFuel f (n / 10) ++ [Nat.digitChar (n % 10)]

/-- Decimal rendering of a counter (Python `astype(str)` on an integer). -/
def natRepr (n : Nat) : String := if n = 0 then "0" else ⟨natCharsFuel n n⟩

/-- `groupby(key).cumcount()` at position `i`: the number of earlier rows
sharing row `i`'s key, in original batch order. -/
def cumcount (keys : List String) (i : Nat) : Nat :=
  ((keys.take i).filter (fun k => k == keys.getD i "")).length

/-- The `RowID` column built from the per-row grouping keys:
`key + "_" + str(cumcount + 1)` (`add_row_hashes` in `finance_cleaner.py`;
step 3 of `csv_reader.read_transactions`). -/
def rowIDs (keys : List String) : List String :=
  (List.range keys.length).map
    (fun i => keys.getD i "" ++ "_" ++ natRepr (cumcount keys i + 1))

example : natRepr 210 = "210" := by decide
example : rowIDs ["abcde", "abcde", "11111"] = ["abcde_1", "abcde_2", "11111_1"] := by decide

/-! ## The tabular model -/

/-- A column of the frame: its name and whether its dtype is numeric
(i.e. whether `select_dtypes("number")` picks it). -/
structure Col where
  name : String
  isNum : Bool
deriving DecidableEq

/-- A data frame: schema plus rows, each row a list of cells in column
order. -/
structure Table where
  cols : List Col
  rows : List (List Cell)
deriving DecidableEq

/-- The cell of row `r` in the column called `name`. -/
def getCell (cols : List Col) (r : List Cell) (name : String) : Cell :=
  match (cols.zip r).find? (fun p => p.1.name == name) with
  | some p => p.2
  | none => Cell.str ""

/-- Numeric reading of a cell.  Numeric-dtype columns hold `num` cells on a
well-formed frame, so the string fallback is never reached. -/
def cellToRat : Cell → Rat
  | .num q => q
  | .str _ => 0

/-- Rational addition routed through `mkRat` so that it reduces in the
kernel; provably equal to `+`. -/
def ratAdd (a b : Rat) : Rat := mkRat (a.num * b.den + b.num * a.den) (a.den * b.den)

theorem ratAdd_eq_add (a b : Rat) : ratAdd a b = a + b := by
  rw [Rat.add_def]
  simp [ratAdd, Rat.normalize_eq_mkRat, Int.mul_comm]

/-- Pandas `sum` over the cells of a numeric column. -/
def sumCells (l : List Cell) : Rat := l.foldr (fun c acc => ratAdd (cellToRat c) acc) 0

/-- Lexicographic comparison of character lists by code point. -/
def charsLe : List Char → List Char → Bool
  | [], _ => true
  | _ :: _, [] => false
  | a :: as, b :: bs =>
    if a.toNat < b.toNat then true
    else if b.toNat < a.toNat then false
    else charsLe as bs

theorem charsLe_total : ∀ as bs : List Char, charsLe as bs = true ∨ charsLe bs as = true
  | [], _ => Or.inl rfl
  | _ :: _, [] => Or.inr rfl
  | a :: as, b :: bs => by
    by_cases h1 : a.toNat < b.toNat
    · exact Or.inl (by simp [charsLe, h1])
    · by_cases h2 : b.toNat < a.toNat
      · exact Or.inr (by simp [charsLe, h2])
      · rcases charsLe_total as bs with h | h
        · exact Or.inl (by simp [charsLe, h1, h2, h])
        · exact Or.inr (by simp [charsLe, h1, h2, h])

theorem charsLe_trans : ∀ as bs cs : List Char,
    charsLe as bs = true → charsLe bs cs = true → charsLe as cs = true
  | [], _, _, _, _ => rfl
  | a :: as, [], cs, h, _ => by cases h
  | _ :: _, _ :: _, [], _, h => by cases h
  | a :: as, b :: bs, c :: cs, h1, h2 => by
    simp only [charsLe] at h1 h2 ⊢
    by_cases hab : a.toNat < b.toNat
    · by_cases hbc : b.toNat < c.toNat
      · rw [if_pos (show a.toNat < c.toNat by omega)]
      · rw [if_neg hbc] at h2
        by_cases hcb : c.toNat < b.toNat
        · rw [if_pos hcb] at h2
          cases h2
        · rw [if_pos (show a.toNat < c.toNat by omega)]
    · rw [if_neg hab] at h1
      by_cases hba : b.toNat < a.toNat
      · rw [if_pos hba] at h1
        cases h1
      · rw [if_neg hba] at h1
        by_cases hbc : b.toNat < c.toNat
        · rw [if_pos (show a.toNat < c.toNat by omega)]
        · rw [if_neg hbc] at h2
          by_cases hcb : c.toNat < b.toNat
          · rw [if_pos hcb] at h2
            cases h2
          · rw [if_neg hcb] at h2
            rw [if_neg (show ¬ a.toNat < c.toNat by omega),
              if_neg (show ¬ c.toNat < a.toNat by omega)]
            exact charsLe_trans as bs cs h1 h2

/-- Boolean comparison on cells used for group-key sorting (numbers before
strings; every grouping key used by the pipeline is a string column, so the
cross-kind cases are arbitrary but fixed; strings compare lexicographically
by code point, as in Python). -/
def cellLeB : Cell → Cell → Bool
  | .num a, .num b => decide (a ≤ b)
  | .num _, .str _ => true
  | .str _, .num _ => false
  | .str a, .str b => charsLe a.data b.data

/-- The sorting relation on cells. -/
def cellLe (a b : Cell) : Prop := cellLeB a b = true

instance : DecidableRel cellLe := fun a b => by unfold cellLe; infer_instance

instance : IsTotal Cell cellLe := by
  constructor
  intro a b
  cases a <;> cases b <;> simp [cellLe, cellLeB]
  · exact le_total _ _
  · exact charsLe_total _ _

instance : IsTrans Cell cellLe := by
  constructor
  intro a b c
  cases a <;> cases b <;> cases c <;> simp [cellLe, cellLeB]
  · exact le_trans
  · exact charsLe_trans _ _ _

/-- The sorting relation on columns (by name, lexicographically by code
point, as `Index` sorting). -/
def colLe (a b : Col) : Prop := charsLe a.name.data b.name.data = true

instance : DecidableRel colLe := fun a b => by unfold colLe; infer_instance

instance : IsTotal Col colLe := ⟨fun a b => charsLe_total a.name.data b.name.data⟩

instance : IsTrans Col colLe := ⟨fun _ _ _ h h' => charsLe_trans _ _ _ h h'⟩

/-- Sorted group-key order (`groupby(..., sort=True)`). -/
def sortCells (l : List Cell) : List Cell := List.insertionSort cellLe l

/-- Name-sorted column order (`Index.difference` sorts). -/
def sortCols (l : List Col) : List Col := List.insertionSort colLe l

/-- Well-formedness of a frame: rows match the schema in width, column names
are unique, and numeric-dtype columns hold numeric cells. -/
structure Table.WF (t : Table) : Prop where
  lens : ∀ r ∈ t.rows, r.length = t.cols.length
  names : (t.cols.map Col.name).Nodup
  numeric : ∀ r ∈ t.rows, ∀ c ∈ t.cols, c.isNum = true →
    ∃ q, getCell t.cols r c.name = Cell.num q

/-! ## De-duplication (`coalesce_duplicates`, `remove_duplicates`) -/

/-- The numeric non-key columns rolled up with `sum`:
`df.select_dtypes("number").columns.difference([key])` (name-sorted, since
`Index.difference` sorts). -/
def ncolsOf (t : Table) (key : String) : List Col :=
  sortCols (t.cols.filter (fun c => c.isNum && !(c.name == key)))

/-- The remaining non-key columns rolled up with `first`:
`df.columns.difference(numeric_cols.union([key]))` (name-sorted). -/
def ocolsOf (t : Table) (key : String) : List Col :=
  sortCols (t.cols.filter (fun c => !c.isNum && !(c.name == key)))

/-- The distinct grouping-key values, in sorted order (`groupby` with its
default `sort=True`). -/
def keyvalsOf (t : Table) (key : String) : List Cell :=
  sortCells (t.rows.map (fun r => getCell t.cols r key)).dedup

/-- The partition of rows carrying key value `v`, in original order. -/
def grpOf (t : Table) (key : String) (v : Cell) : List (List Cell) :=
  t.rows.filter (fun r => getCell t.cols r key == v)

/-- The aggregated row of the partition with key value `v`: the key value
itself (`reset_index`), then the sums of the numeric columns, then the first
value of every other column. -/
def outRowOf (t : Table) (key : String) (v : Cell) : List Cell :=
  v ::
    ((ncolsOf t key).map (fun c =>
        Cell.num (sumCells ((grpOf t key v).map (fun r => getCell t.cols r c.name)))) ++
     (ocolsOf t key).map (fun c =>
        ((grpOf t key v).map (fun r => getCell t.cols r c.name)).headD (Cell.str "")))

/-- The output schema: the key column first (its original dtype), then the
summed numeric columns, then the `first`-aggregated other columns. -/
def outColsOf (t : Table) (key : String) (kflag : Bool) : List Col :=
  ⟨key, kflag⟩ :: (ncolsOf t key ++ ocolsOf t key)

/-- `coalesce_duplicates(df, key)`: group on `key` (groups in sorted key
order, as `groupby` with default `sort=True`), aggregate numeric non-key
columns with `sum` and all remaining columns with `first`; `reset_index()`
puts the key back as the leading column.  Raises `KeyError` (here: `none`)
when `key` is not a column. -/
def coalesce_duplicates (key : String) (t : Table) : Option Table :=
  match t.cols.find? (fun c => c.name == key) with
  | none => none
  | some kc =>
    some { cols := outColsOf t key kc.isNum,
           rows := (keyvalsOf t key).map (outRowOf t key) }

/-- Keep the first row of every key partition, in original order
(fuel-driven so that it reduces in the kernel; fuel `length` suffices). -/
def dropDupFuel (f : List Cell → Cell) : Nat → List (List Cell) → List (List Cell)
  | _, [] => []
  | 0, l => l
  | fu + 1, r :: rs => r :: dropDupFuel f fu (rs.filter (fun r' => !(f r' == f r)))

/-- `remove_duplicates(df, key)` in `finance_cleaner.py`, and the
`drop_duplicates(subset=["TransactionFingerprint"], keep="first")` call of
`csv_reader.py`: drop every row whose key already occurred earlier.
Returns `none` (the `KeyError`) when `key` is not a column. -/
def remove_duplicates (key : String) (t : Table) : Option Table :=
  if t.cols.any (fun c => c.name == key) then
    some { cols := t.cols,
           rows := dropDupFuel (fun r => getCell t.cols r key) t.rows.length t.rows }
  else none

/-! ## Generic facts about the classification loop -/

/-- Any run of the classification loop either falls through to
`UNCATEGORIZED` or returns the category of some rule whose condition
evaluated to `True`. -/
theorem classifyList_cases (rs : List Rule) (item : Item) :
    classifyList rs item = Category.UNCATEGORIZED ∨
      ∃ r ∈ rs, r.apply_condition item = true ∧ classifyList rs item = r.category := by
  induction rs with
  | nil => exact Or.inl rfl
  | cons r rs ih =>
    by_cases h : r.apply_condition item
    · exact Or.inr ⟨r, List.mem_cons_self r rs, h,
        by simp [classifyList, Rule.get_category, h]⟩
    · have hstep : classifyList (r :: rs) item = classifyList rs item := by
        simp [classifyList, Rule.get_category, h]
      rcases ih with h' | ⟨r', hm, ha, he⟩
      · exact Or.inl (hstep ▸ h')
      · exact Or.inr ⟨r', List.mem_cons_of_mem _ hm, ha, hstep ▸ he⟩

/-- A rule whose condition raises is skipped: the loop behaves as if the
rule were absent. -/
theorem classifyList_skip_error (pre post : List Rule) (r : Rule) (item : Item)
    (e : PyErr) (h : r.condition item = .error e) :
    classifyList (pre ++ r :: post) item = classifyList (pre ++ post) item := by
  induction pre with
  | nil =>
    have : r.apply_condition item = false := by
      simp [Rule.apply_condition, h]
    simp [classifyList, Rule.get_category, this]
  | cons p pre ih =>
    simp only [List.cons_append, classifyList]
    rw [show pre.append (r :: post) = pre ++ r :: post from rfl,
      show pre.append post = pre ++ post from rfl, ih]

/-- The "Ally HYSA" rule can never match: either the category test fails (or
raises `KeyError`), or the broken `description_has` call raises `TypeError`;
`apply_condition` converts both raises to `False`. -/
theorem ally_apply_false (item : Item) :
    Rule.apply_condition ⟨"Ally HYSA", allyCond, Category.SAVINGS⟩ item = false := by
  unfold Rule.apply_condition allyCond
  cases h : is_category_equal item "Transfers" with
  | error e => simp [h, Bind.bind, Except.bind]
  | ok b => cases b <;> simp [h, Bind.bind, Except.bind, Pure.pure, Except.pure]

/-- Rules that never match leave the loop's result unchanged. -/
theorem classifyList_append_all_false (pre rs : List Rule) (item : Item)
    (h : ∀ r ∈ pre, r.apply_condition item = false) :
    classifyList (pre ++ rs) item = classifyList rs item := by
  induction pre with
  | nil => rfl
  | cons r pre ih =>
    have hr := h r (List.mem_cons_self r pre)
    simp only [List.cons_append, classifyList, Rule.get_category, hr, if_neg Bool.false_ne_true]
    exact ih fun r' hr' => h r' (List.mem_cons_of_mem _ hr')

/-- When some trailing rule always matches, the loop returns the category of
a rule whose condition evaluated to `True`. -/
theorem classifyList_total (rs : List Rule) (item : Item) (last : Rule)
    (hlast : last.apply_condition item = true) :
    ∃ r ∈ rs ++ [last], r.apply_condition item = true ∧
      classifyList (rs ++ [last]) item = r.category := by
  induction rs with
  | nil =>
    exact ⟨last, by simp, hlast, by simp [classifyList, Rule.get_category, hlast]⟩
  | cons r rs ih =>
    by_cases h : r.apply_condition item
    · exact ⟨r, by simp, h, by simp [classifyList, Rule.get_category, h]⟩
    · obtain ⟨r', hm, ha, he⟩ := ih
      refine ⟨r', by simp only [List.cons_append, List.mem_cons]; exact Or.inr hm, ha, ?_⟩
      have hb : r.apply_condition item = false := by simp [h]
      simp only [List.cons_append, classifyList, Rule.get_category, hb,
        if_neg Bool.false_ne_true]
      exact he

/-- **C3** (counterexample): a concrete item that matches none of the
specific rules and has a negative amount is classified by the catch-all as
the fixed category `UNCATEGORIZED` (string value `"Uncategorized"`), not as
"uncategorized spending" — the catch-all's category does not depend on the
amount's sign. -/
theorem C3_catchall_counterexample :
    (∀ r ∈ engineRules.dropLast,
      r.apply_condition
        [("Category", Cell.str "Online Payment"),
         ("Description", Cell.str "ELECTRICITY FROM ROOMMATE"),
         ("Amount", Cell.num (mkRat (-30) 1))] = false) ∧
    mkRat (-30) 1 < 0 ∧
    classify_item
      [("Category", Cell.str "Online Payment"),
       ("Description", Cell.str "ELECTRICITY FROM ROOMMATE"),
       ("Amount", Cell.num (mkRat (-30) 1))] = Category.UNCATEGORIZED ∧
    ((Category.value Category.UNCATEGORIZED) == "uncategorized spending") = false := by
  refine ⟨by decide, by decide, by decide, by decide⟩

/-- **C3** (amended): an item that matches no specific rule is classified by
the final catch-all rule as the fixed category `UNCATEGORIZED`, regardless
of the amount's sign. -/
theorem C3_catchall_amended (item : Item)
    (h : ∀ r ∈ engineRules.dropLast, r.apply_condition item = false) :
    classify_item item = Category.UNCATEGORIZED := by
  have hsplit : engineRules = engineRules.dropLast ++
      [⟨"Fallback: Uncategorized transactions", fun _ => .ok true,
        Category.UNCATEGORIZED⟩] := rfl
  rw [classify_item, hsplit, classifyList_append_all_false _ _ _ h]
  simp [classifyList, Rule.get_category, Rule.apply_condition]

/-- Witness for `C3_catchall_amended` at the concrete item of the
counterexample. -/
theorem C3_catchall_amended_witness :
    classify_item
      [("Category", Cell.str "Online Payment"),
       ("Description", Cell.str "ELECTRICITY FROM ROOMMATE"),
       ("Amount", Cell.num (mkRat (-30) 1))] = Category.UNCATEGORIZED :=
  C3_catchall_amended _ (by decide)

/-- **C4**: `classify_item` can only return one of the six categories of
working rules — never `SAVINGS`, because the "Ally HYSA" rule's predicate
calls `description_has` without its required `substr` argument and the
`TypeError` is converted to a non-match; in particular a Transfers item
whose description contains "ALLY BANK DES" falls through to
`UNCATEGORIZED`. -/
theorem C4_never_savings :
    (∀ item : Item, classify_item item ∈
      [Category.GROCERIES, Category.RESTAURANTS, Category.ELECTRICITY,
       Category.SALARY, Category.RIDESHARE, Category.UNCATEGORIZED]) ∧
    classify_item
      [("Category", Cell.str "Transfers"),
       ("Description", Cell.str "ACH ALLY BANK DES:HOME SAVE"),
       ("Amount", Cell.num (mkRat (-500) 1))] = Category.UNCATEGORIZED := by
  constructor
  · intro item
    rcases classifyList_cases engineRules item with hu | ⟨r, hmem, happ, heq⟩
    · rw [classify_item, hu]; decide
    · rw [classify_item, heq]
      simp only [engineRules, List.mem_cons, List.not_mem_nil, or_false] at hmem
      rcases hmem with rfl | rfl | rfl | rfl | rfl | rfl | rfl
      all_goals first
        | decide
        | (rw [ally_apply_false] at happ; cases happ)
  · decide

/-- **C5**: `csv_reader`'s flag conversion maps `yes`/`y`/`true`
(case-insensitively) to `True` and everything else — including
`no`/`n`/`false` — to `False`, never missing; but `finance_cleaner._to_bool`
maps `"true"` and `"false"` (and every string outside `yes`/`no`/`y`/`n`) to
a *missing* value: its mapping's `True`/`False` keys are booleans that can
never match a lower-cased string, and there is no `fillna`. -/
theorem C5_flag_normalization :
    (∀ s : String,
      to_bool_reader s =
        (strLower s == "yes" || strLower s == "y" || strLower s == "true")) ∧
    to_bool_cleaner "true" = none ∧
    to_bool_cleaner "false" = none ∧
    to_bool_cleaner "TRUE" = none ∧
    to_bool_cleaner "yes" = some true ∧
    to_bool_cleaner "NO" = some false := by
  refine ⟨fun s => ?_, by decide, by decide, by decide, by decide, by decide⟩
  cases hb1 : strLower s == "yes" <;> cases hb2 : strLower s == "y" <;>
    cases hb3 : strLower s == "true" <;> cases hb4 : strLower s == "no" <;>
    cases hb5 : strLower s == "n" <;> cases hb6 : strLower s == "false" <;>
    simp [to_bool_reader, List.lookup, hb1, hb2, hb3, hb4, hb5, hb6]

/-- **C9**: classification is total — every item, however malformed, gets
the category of some rule whose condition evaluated to `True` (the
catch-all guarantees existence) — and a rule whose predicate raises is
treated as non-matching: the loop continues exactly as if that rule were
absent. -/
theorem C9_total_and_skip :
    (∀ item : Item, ∃ r ∈ engineRules, r.apply_condition item = true ∧
        classify_item item = r.category) ∧
    (∀ (pre post : List Rule) (r : Rule) (item : Item) (e : PyErr),
        r.condition item = .error e →
        classifyList (pre ++ r :: post) item = classifyList (pre ++ post) item) := by
  constructor
  · intro item
    have hsplit : engineRules = engineRules.dropLast ++
        [⟨"Fallback: Uncategorized transactions", fun _ => .ok true,
          Category.UNCATEGORIZED⟩] := rfl
    rw [classify_item, hsplit]
    exact classifyList_total _ item _ (by simp [Rule.apply_condition])
  · exact classifyList_skip_error

/-- **C10**: amount normalisation sends `"($45.00)"` to `-45.00` and
`"$1,234.56"` to `1234.56`; the cleaning pass removes every `$`, `,` and
whitespace character; a fully parenthesised `[-\d.]` run becomes the same
run with a leading minus before numeric parsing; and an unparseable string
becomes the missing sentinel instead of an error. -/
theorem C10_parse_amount :
    parse_amount "($45.00)" = some (-45) ∧
    parse_amount "$1,234.56" = some (1234.56 : Rat) ∧
    parse_amount "abc" = none ∧
    (∀ s : String, ∀ c ∈ (stripChars s).data, isStripped c = false) ∧
    (∀ mid : List Char, mid ≠ [] → mid.all parenAllowed = true →
      parenFix ⟨'(' :: (mid ++ [')'])⟩ = ⟨'-' :: mid⟩) := by
  refine ⟨by decide, ?_, by decide, fun s c hc => ?_, fun mid hne hall => ?_⟩
  · have h : parse_amount "$1,234.56" = some (mkRat 123456 100) := by decide
    rw [h]
    norm_num [Rat.mkRat_eq_divInt, Rat.divInt_eq_div]
  · simp only [stripChars, List.mem_filter] at hc
    simpa using hc.2
  · have hcat : ('(' :: (mid ++ [')'])) = ('(' :: mid) ++ [')'] := by simp
    have hlast : ('(' :: (mid ++ [')'])).getLast? = some ')' := by
      rw [hcat]
      exact List.getLast?_concat _
    have hdrop : (('(' :: (mid ++ [')'])).drop 1).dropLast = mid := by
      simp [List.dropLast_concat]
    have hempty : mid.isEmpty = false := by
      cases mid with
      | nil => exact absurd rfl hne
      | cons a l => rfl
    unfold parenFix
    simp [hlast, hdrop, hempty, hall]

/-- Witness for the universally quantified parts of `C10_parse_amount`, at
the stripped string `"$a"` and the parenthesised digit run `['4','5']`. -/
theorem C10_parse_amount_witness :
    isStripped 'a' = false ∧
    parenFix ⟨'(' :: (['4', '5'] ++ [')'])⟩ = ⟨'-' :: ['4', '5']⟩ :=
  ⟨C10_parse_amount.2.2.2.1 "$a" 'a' (by decide),
   C10_parse_amount.2.2.2.2 ['4', '5'] (by decide) (by decide)⟩

/-! ## C8 infrastructure: decimal rendering is injective, cumcount grows -/

/-- Parse back a decimal digit run (inverse of `natCharsFuel`). -/
def charsVal (l : List Char) : Nat := l.foldl (fun a c => a * 10 + (c.toNat - 48)) 0

theorem digitChar_val {d : Nat} (h : d < 10) : (Nat.digitChar d).toNat - 48 = d := by
  interval_cases d <;> decide

theorem charsVal_natCharsFuel (f : Nat) :
    ∀ n, n ≤ f → charsVal (natCharsFuel f n) = n := by
  induction f with
  | zero =>
    intro n hn
    interval_cases n
    rfl
  | succ f ih =>
    intro n hn
    match n with
    | 0 => rfl
    | m + 1 =>
      have hdiv : (m + 1) / 10 ≤ f := by
        have hlt : (m + 1) / 10 < m + 1 :=
          Nat.div_lt_self (Nat.succ_pos m) (by decide)
        omega
      have hmod : (m + 1) % 10 < 10 := Nat.mod_lt _ (by omega)
      have hrec := ih ((m + 1) / 10) hdiv
      show charsVal (natCharsFuel f ((m + 1) / 10) ++ [Nat.digitChar ((m + 1) % 10)]) = m + 1
      unfold charsVal at hrec ⊢
      rw [List.foldl_append, hrec]
      simp only [List.foldl_cons, List.foldl_nil]
      rw [digitChar_val hmod]
      omega

/-- Decimal rendering is injective. -/
theorem natRepr_inj {m n : Nat} (h : natRepr m = natRepr n) : m = n := by
  have hd : (natRepr m).data = (natRepr n).data := by rw [h]
  unfold natRepr at hd
  by_cases hm : m = 0 <;> by_cases hn : n = 0
  · omega
  · exfalso
    rw [if_pos hm, if_neg hn] at hd
    have h2 : charsVal (natCharsFuel n n) = n := charsVal_natCharsFuel n n le_rfl
    rw [show (String.mk (natCharsFuel n n)).data = natCharsFuel n n from rfl] at hd
    rw [← hd] at h2
    exact hn (by simpa [charsVal] using h2.symm)
  · exfalso
    rw [if_neg hm, if_pos hn] at hd
    have h2 : charsVal (natCharsFuel m m) = m := charsVal_natCharsFuel m m le_rfl
    rw [show (String.mk (natCharsFuel m m)).data = natCharsFuel m m from rfl] at hd
    rw [hd] at h2
    exact hm (by simpa [charsVal] using h2.symm)
  · rw [if_neg hm, if_neg hn] at hd
    have h1 : charsVal (natCharsFuel m m) = m := charsVal_natCharsFuel m m le_rfl
    have h2 : charsVal (natCharsFuel n n) = n := charsVal_natCharsFuel n n le_rfl
    rw [show (String.mk (natCharsFuel m m)).data = natCharsFuel m m from rfl,
        show (String.mk (natCharsFuel n n)).data = natCharsFuel n n from rfl] at hd
    rw [hd] at h1
    omega

/-- The occurrence counter strictly grows along later positions that carry
the same key. -/
theorem cumcount_lt {keys : List String} {i j : Nat} (hij : i < j)
    (hj : j < keys.length) (heq : keys.getD i "" = keys.getD j "") :
    cumcount keys i < cumcount keys j := by
  have hi : i < keys.length := lt_trans hij hj
  unfold cumcount
  rw [← heq]
  have hgi : keys[i]? = some (keys.getD i "") := by
    rw [List.getD_eq_getElem?_getD, List.getElem?_eq_getElem hi]
    rfl
  have hstep : (keys.take (i + 1)).filter (fun k => k == keys.getD i "") =
      (keys.take i).filter (fun k => k == keys.getD i "") ++ [keys.getD i ""] := by
    rw [List.take_succ, hgi, List.filter_append]
    congr 1
    simp [List.filter]
  have hsub : List.Sublist (keys.take (i + 1)) (keys.take j) := by
    rw [show keys.take (i + 1) = (keys.take j).take (i + 1) by
      rw [List.take_take]
      congr 1
      omega]
    exact List.take_sublist _ _
  have hle := (hsub.filter (fun k => k == keys.getD i "")).length_le
  rw [hstep] at hle
  simp only [List.length_append, List.length_cons, List.length_nil] at hle
  omega

/-- **C8**: row identifiers are the provenance key, an underscore and a
1-based occurrence index counting earlier rows with the same key in original
batch order; with 5-character keys (as produced by the 5-hex-char hash) the
identifiers are pairwise distinct even for byte-identical rows. -/
theorem C8_row_identifiers (keys : List String)
    (h5 : ∀ k ∈ keys, k.length = 5) :
    (∀ i, i < keys.length →
      (rowIDs keys).getD i "" =
        keys.getD i "" ++ "_" ++ natRepr (cumcount keys i + 1)) ∧
    (rowIDs keys).Nodup := by
  constructor
  · intro i hi
    simp [rowIDs, List.getElem?_map, List.getElem?_range hi]
  · unfold rowIDs
    apply List.Nodup.map_on ?_ (List.nodup_range _)
    intro i hi j hj hf
    simp only [List.mem_range] at hi hj
    by_contra hne
    have hki : keys.getD i "" ∈ keys := by
      have : keys[i]? = some (keys.getD i "") := by
        rw [List.getD_eq_getElem?_getD, List.getElem?_eq_getElem hi]
        rfl
      exact List.getElem?_mem this
    have hkj : keys.getD j "" ∈ keys := by
      have : keys[j]? = some (keys.getD j "") := by
        rw [List.getD_eq_getElem?_getD, List.getElem?_eq_getElem hj]
        rfl
      exact List.getElem?_mem this
    have hdata : (keys.getD i "").data ++ ('_' :: (natRepr (cumcount keys i + 1)).data) =
        (keys.getD j "").data ++ ('_' :: (natRepr (cumcount keys j + 1)).data) := by
      have := congrArg String.data hf
      simpa [String.data_append] using this
    have hlen : (keys.getD i "").data.length = (keys.getD j "").data.length := by
      have l1 : (keys.getD i "").length = 5 := h5 _ hki
      have l2 : (keys.getD j "").length = 5 := h5 _ hkj
      rw [show (keys.getD i "").data.length = (keys.getD i "").length from rfl,
        show (keys.getD j "").data.length = (keys.getD j "").length from rfl, l1, l2]
    obtain ⟨hkeq, hrest⟩ := List.append_inj hdata hlen
    have hkeys : keys.getD i "" = keys.getD j "" := String.ext hkeq
    have hreprs : natRepr (cumcount keys i + 1) = natRepr (cumcount keys j + 1) := by
      apply String.ext
      exact List.cons.inj hrest |>.2
    have hcc : cumcount keys i = cumcount keys j := by
      have := natRepr_inj hreprs
      omega
    rcases Nat.lt_or_ge i j with hij | hge
    · exact absurd hcc (Nat.ne_of_lt (cumcount_lt hij hj hkeys))
    · have hji : j < i := by omega
      exact absurd hcc.symm (Nat.ne_of_lt (cumcount_lt hji hi hkeys.symm))

/-- Witness for `C8_row_identifiers` at a concrete key batch with a repeated
key. -/
theorem C8_row_identifiers_witness :
    (rowIDs ["abcde", "abcde", "11111"]).getD 1 "" =
      "abcde" ++ "_" ++ natRepr (cumcount ["abcde", "abcde", "11111"] 1 + 1) ∧
    (rowIDs ["abcde", "abcde", "11111"]).Nodup :=
  ⟨(C8_row_identifiers ["abcde", "abcde", "11111"] (by decide)).1 1 (by decide),
   (C8_row_identifiers ["abcde", "abcde", "11111"] (by decide)).2⟩

/-! ## C6: fingerprints of rows differing only in the source file -/

theorem strJoin_foldl (l : List String) (acc : String) :
    (l.foldl (· ++ ·) acc).data = acc.data ++ (l.map String.data).flatten := by
  induction l generalizing acc with
  | nil => simp
  | cons s l ih =>
    simp only [List.foldl_cons, ih, List.map_cons, List.flatten_cons,
      String.data_append, List.append_assoc]

/-- The characters of a joined string list are the concatenated characters. -/
theorem strJoin_data (l : List String) :
    (String.join l).data = (l.map String.data).flatten := by
  simp [String.join, strJoin_foldl]

/-- **C6** (amended): for two rows that agree on every field except the
source-file field, the content-only hashes (source file excluded) are
equal, and the joined serialisations hashed for the include-source
fingerprint differ — but the include-source *fingerprints* themselves are
only 5-hex-char SHA-256 prefixes and may coincide (see the
counterexample), so fingerprint inequality is not guaranteed. -/
theorem C6_fingerprints_amended (pre post : List (String × String)) (s1 s2 : String)
    (hs : (s1 == s2) = false) :
    row_hash (pre ++ ("SourceFile", s1) :: post) false =
      row_hash (pre ++ ("SourceFile", s2) :: post) false ∧
    (String.join ((pre ++ ("SourceFile", s1) :: post).map Prod.snd) ==
      String.join ((pre ++ ("SourceFile", s2) :: post).map Prod.snd)) = false := by
  constructor
  · unfold row_hash
    simp [List.filter_append, List.filter_cons]
  · rw [beq_eq_false_iff_ne]
    intro hjoin
    have hdata := congrArg String.data hjoin
    rw [strJoin_data, strJoin_data] at hdata
    simp only [List.map_append, List.map_cons, List.flatten_append,
      List.flatten_cons] at hdata
    have h1 := List.append_cancel_left hdata
    have h2 := List.append_cancel_right h1
    exact (beq_eq_false_iff_ne.mp hs) (String.ext h2)

/-- Witness for `C6_fingerprints_amended` at two concrete single-field rows. -/
theorem C6_fingerprints_amended_witness :
    row_hash ([("Amount", "-45.0")] ++ ("SourceFile", "a.csv") :: []) false =
      row_hash ([("Amount", "-45.0")] ++ ("SourceFile", "b.csv") :: []) false ∧
    (String.join (([("Amount", "-45.0")] ++ ("SourceFile", "a.csv") :: []).map Prod.snd) ==
      String.join (([("Amount", "-45.0")] ++ ("SourceFile", "b.csv") :: []).map Prod.snd)) =
      false :=
  C6_fingerprints_amended [("Amount", "-45.0")] [] "a.csv" "b.csv" (by decide)

set_option maxRecDepth 100000 in
/-- **C6** (counterexample): two concrete rows that agree everywhere except
in `SourceFile` (where they differ), whose include-source 5-hex-char hashes
nevertheless *coincide* — so "the row hashes computed with the source file
included are different" fails; their excluded hashes are equal as claimed. -/
theorem C6_counterexample :
    ("transactions_436.csv" == "transactions_564.csv") = false ∧
    row_hash [("Amount", "-45.0"), ("Description", "TRADER JOES"),
              ("SourceFile", "transactions_436.csv")] true =
      row_hash [("Amount", "-45.0"), ("Description", "TRADER JOES"),
                ("SourceFile", "transactions_564.csv")] true ∧
    row_hash [("Amount", "-45.0"), ("Description", "TRADER JOES"),
              ("SourceFile", "transactions_436.csv")] false =
      row_hash [("Amount", "-45.0"), ("Description", "TRADER JOES"),
                ("SourceFile", "transactions_564.csv")] false := by
  refine ⟨by decide, by decide, by decide⟩

set_option maxRecDepth 100000 in
example :
    row_hash [("Amount", "-45.0"), ("Description", "TRADER JOES"),
              ("SourceFile", "transactions_436.csv")] true = "61954" := by decide

/-! ## Plumbing lemmas for the coalescer -/

instance : LawfulBEq Cell where
  eq_of_beq h := by simpa [BEq.beq] using h
  rfl := by simp [BEq.beq]

theorem getCell_cons_self (kc : Col) (cs : List Col) (v : Cell) (vs : List Cell) :
    getCell (kc :: cs) (v :: vs) kc.name = v := by
  unfold getCell
  rw [List.zip_cons_cons, List.find?_cons_of_pos _ (by simp)]

theorem getCell_cons_ne (kc : Col) (cs : List Col) (v : Cell) (vs : List Cell)
    (name : String) (h : name ≠ kc.name) :
    getCell (kc :: cs) (v :: vs) name = getCell cs vs name := by
  unfold getCell
  rw [List.zip_cons_cons, List.find?_cons_of_neg _ (by simp [Ne.symm h])]

theorem getCell_append_map (cols1 cols2 : List Col) (f : Col → Cell) (vs : List Cell)
    (name : String) :
    getCell (cols1 ++ cols2) (cols1.map f ++ vs) name =
      match cols1.find? (fun c => c.name == name) with
      | some c => f c
      | none => getCell cols2 vs name := by
  induction cols1 with
  | nil => simp [List.find?]
  | cons c cs ih =>
    by_cases h : c.name = name
    · rw [List.cons_append, List.map_cons, List.cons_append, ← h,
        getCell_cons_self, List.find?_cons_of_pos _ (by simp)]
    · rw [List.cons_append, List.map_cons, List.cons_append,
        getCell_cons_ne _ _ _ _ _ (Ne.symm h), List.find?_cons_of_neg _ (by simp [h]), ih]

theorem getCell_map (cols : List Col) (g : Col → Cell) (name : String) :
    getCell cols (cols.map g) name =
      match cols.find? (fun c => c.name == name) with
      | some c => g c
      | none => Cell.str "" := by
  have h := getCell_append_map cols [] g [] name
  simpa [getCell] using h

/-- With pairwise-distinct column names, the name of a member column finds
exactly that column. -/
theorem find?_name_of_mem {l : List Col} (hnd : (l.map Col.name).Nodup)
    {c : Col} (hc : c ∈ l) :
    l.find? (fun d => d.name == c.name) = some c := by
  induction l with
  | nil => cases hc
  | cons d l ih =>
    by_cases hd : d.name = c.name
    · have hcd : c = d := by
        rcases List.mem_cons.mp hc with rfl | hmem
        · rfl
        · exfalso
          have hmm : c.name ∈ l.map Col.name := List.mem_map_of_mem _ hmem
          rw [← hd] at hmm
          exact (List.nodup_cons.mp hnd).1 hmm
      subst hcd
      exact List.find?_cons_of_pos _ (by simp)
    · rcases List.mem_cons.mp hc with rfl | hmem
      · exact absurd rfl hd
      · rw [List.find?_cons_of_neg _ (by simp [hd])]
        exact ih (List.nodup_cons.mp hnd).2 hmem

theorem sortCols_names_nodup {l : List Col} (h : (l.map Col.name).Nodup) :
    ((sortCols l).map Col.name).Nodup := by
  have hp : List.Perm (sortCols l) l := List.perm_insertionSort _ _
  exact ((hp.map Col.name).nodup_iff).mpr h

theorem mem_ncolsOf {t : Table} {key : String} {c : Col} :
    c ∈ ncolsOf t key ↔ c ∈ t.cols ∧ c.isNum = true ∧ c.name ≠ key := by
  unfold ncolsOf sortCols
  rw [List.mem_insertionSort, List.mem_filter]
  simp [and_assoc]

theorem mem_ocolsOf {t : Table} {key : String} {c : Col} :
    c ∈ ocolsOf t key ↔ c ∈ t.cols ∧ c.isNum = false ∧ c.name ≠ key := by
  unfold ocolsOf sortCols
  rw [List.mem_insertionSort, List.mem_filter]
  simp [and_assoc]

theorem ncols_names_nodup (t : Table) (key : String)
    (hnd : (t.cols.map Col.name).Nodup) :
    ((ncolsOf t key).map Col.name).Nodup := by
  unfold ncolsOf
  exact sortCols_names_nodup
    (hnd.sublist ((List.filter_sublist _).map Col.name))

theorem ocols_names_nodup (t : Table) (key : String)
    (hnd : (t.cols.map Col.name).Nodup) :
    ((ocolsOf t key).map Col.name).Nodup := by
  unfold ocolsOf
  exact sortCols_names_nodup
    (hnd.sublist ((List.filter_sublist _).map Col.name))

/-- Columns with equal names are equal in a frame with distinct names. -/
theorem col_eq_of_name_eq {t : Table} (hnd : (t.cols.map Col.name).Nodup)
    {c d : Col} (hc : c ∈ t.cols) (hd : d ∈ t.cols) (h : c.name = d.name) :
    c = d :=
  List.inj_on_of_nodup_map hnd hc hd h

theorem ncols_ocols_name_ne {t : Table} {key : String}
    (hnd : (t.cols.map Col.name).Nodup) {c d : Col}
    (hc : c ∈ ncolsOf t key) (hd : d ∈ ocolsOf t key) : c.name ≠ d.name := by
  intro h
  obtain ⟨hc1, hc2, -⟩ := mem_ncolsOf.mp hc
  obtain ⟨hd1, hd2, -⟩ := mem_ocolsOf.mp hd
  have := col_eq_of_name_eq hnd hc1 hd1 h
  subst this
  rw [hc2] at hd2
  cases hd2

theorem keyvals_nodup (t : Table) (key : String) : (keyvalsOf t key).Nodup :=
  ((List.perm_insertionSort _ _).nodup_iff).mpr (List.nodup_dedup _)

theorem mem_keyvals {t : Table} {key : String} {v : Cell} :
    v ∈ keyvalsOf t key ↔ v ∈ t.rows.map (fun r => getCell t.cols r key) := by
  unfold keyvalsOf sortCells
  rw [List.mem_insertionSort, List.mem_dedup]

theorem keyvals_sorted (t : Table) (key : String) :
    (keyvalsOf t key).Sorted cellLe :=
  List.sorted_insertionSort _ _

theorem getCell_outRow_key (t : Table) (key : String) (kflag : Bool) (v : Cell) :
    getCell (outColsOf t key kflag) (outRowOf t key v) key = v :=
  getCell_cons_self ⟨key, kflag⟩ _ v _

theorem getCell_outRow_ncol (t : Table) (key : String) (kflag : Bool)
    (hnd : (t.cols.map Col.name).Nodup) {c : Col} (hc : c ∈ ncolsOf t key)
    (v : Cell) :
    getCell (outColsOf t key kflag) (outRowOf t key v) c.name =
      Cell.num (sumCells ((grpOf t key v).map (fun r => getCell t.cols r c.name))) := by
  have hkey : c.name ≠ key := (mem_ncolsOf.mp hc).2.2
  rw [outColsOf, outRowOf, getCell_cons_ne _ _ _ _ _ hkey, getCell_append_map,
    find?_name_of_mem (ncols_names_nodup t key hnd) hc]

theorem getCell_outRow_ocol (t : Table) (key : String) (kflag : Bool)
    (hnd : (t.cols.map Col.name).Nodup) {c : Col} (hc : c ∈ ocolsOf t key)
    (v : Cell) :
    getCell (outColsOf t key kflag) (outRowOf t key v) c.name =
      ((grpOf t key v).map (fun r => getCell t.cols r c.name)).headD (Cell.str "") := by
  have hkey : c.name ≠ key := (mem_ocolsOf.mp hc).2.2
  have hn : (ncolsOf t key).find? (fun d => d.name == c.name) = none := by
    rw [List.find?_eq_none]
    intro d hd
    simp only [beq_iff_eq]
    exact fun h => (ncols_ocols_name_ne hnd hd hc) h
  rw [outColsOf, outRowOf, getCell_cons_ne _ _ _ _ _ hkey, getCell_append_map, hn,
    getCell_map, find?_name_of_mem (ocols_names_nodup t key hnd) hc]

/-- The key values of the coalesced rows are exactly `keyvalsOf`. -/
theorem coalesce_out_keys (t : Table) (key : String) (kflag : Bool) :
    ((keyvalsOf t key).map (outRowOf t key)).map
        (fun r => getCell (outColsOf t key kflag) r key) = keyvalsOf t key := by
  rw [List.map_map]
  have : ((fun r => getCell (outColsOf t key kflag) r key) ∘ outRowOf t key) =
      fun v => v := by
    funext v
    exact getCell_outRow_key t key kflag v
  rw [this]
  exact List.map_id _

theorem coalesce_some_elim {t t' : Table} {key : String}
    (hco : coalesce_duplicates key t = some t') :
    ∃ kflag, t'.cols = outColsOf t key kflag ∧
      t'.rows = (keyvalsOf t key).map (outRowOf t key) := by
  unfold coalesce_duplicates at hco
  cases h : t.cols.find? (fun c => c.name == key) with
  | none => rw [h] at hco; cases hco
  | some kc =>
    rw [h] at hco
    injection hco with hco
    exact ⟨kc.isNum, by rw [← hco], by rw [← hco]⟩

/-- **C1**: coalescing on a grouping key produces exactly one output row per
key partition — the output key values are pairwise distinct and range over
exactly the key values present before coalescing — and in the output row of
a partition every numeric non-key column holds the sum of that column over
the partition's rows. -/
theorem C1_coalesce_sum (t t' : Table) (key : String)
    (hnd : (t.cols.map Col.name).Nodup)
    (hco : coalesce_duplicates key t = some t') :
    (t'.rows.map (fun r => getCell t'.cols r key)).Nodup ∧
    (∀ v : Cell, (∃ r ∈ t.rows, getCell t.cols r key = v) ↔
        ∃ r' ∈ t'.rows, getCell t'.cols r' key = v) ∧
    (∀ v : Cell, ∀ r' ∈ t'.rows, getCell t'.cols r' key = v →
      ∀ c ∈ t.cols, c.isNum = true → c.name ≠ key →
        getCell t'.cols r' c.name =
          Cell.num (sumCells ((t.rows.filter
              (fun r => getCell t.cols r key == v)).map
            (fun r => getCell t.cols r c.name)))) := by
  obtain ⟨kflag, hcols, hrows⟩ := coalesce_some_elim hco
  rw [hcols, hrows]
  refine ⟨?_, ?_, ?_⟩
  · rw [coalesce_out_keys]
    exact keyvals_nodup t key
  · intro v
    constructor
    · rintro ⟨r, hr, hv⟩
      have hvk : v ∈ keyvalsOf t key :=
        mem_keyvals.mpr (List.mem_map.mpr ⟨r, hr, hv⟩)
      exact ⟨outRowOf t key v, List.mem_map_of_mem _ hvk,
        getCell_outRow_key t key kflag v⟩
    · rintro ⟨r', hr', hv⟩
      obtain ⟨w, hw, rfl⟩ := List.mem_map.mp hr'
      rw [getCell_outRow_key] at hv
      subst hv
      exact List.mem_map.mp (mem_keyvals.mp hw)
  · intro v r' hr' hv c hcmem hcnum hckey
    obtain ⟨w, hw, rfl⟩ := List.mem_map.mp hr'
    rw [getCell_outRow_key] at hv
    subst hv
    have hc : c ∈ ncolsOf t key := mem_ncolsOf.mpr ⟨hcmem, hcnum, hckey⟩
    rw [getCell_outRow_ncol t key kflag hnd hc]
    rfl

example :
    coalesce_duplicates "CrossKey"
      ⟨[⟨"CrossKey", false⟩, ⟨"Amount", true⟩],
       [[Cell.str "k", Cell.num (mkRat 2 1)], [Cell.str "k", Cell.num (mkRat 3 1)]]⟩ =
    some ⟨[⟨"CrossKey", false⟩, ⟨"Amount", true⟩],
          [[Cell.str "k", Cell.num (mkRat 5 1)]]⟩ := by decide

theorem dropDupFuel_sublist (f : List Cell → Cell) :
    ∀ (fu : Nat) (l : List (List Cell)), List.Sublist (dropDupFuel f fu l) l := by
  intro fu
  induction fu with
  | zero =>
    intro l
    cases l with
    | nil => exact List.Sublist.refl _
    | cons r rs => exact List.Sublist.refl _
  | succ fu ih =>
    intro l
    cases l with
    | nil => exact List.Sublist.refl _
    | cons r rs =>
      rw [show dropDupFuel f (fu + 1) (r :: rs) =
          r :: dropDupFuel f fu (rs.filter fun r' => !(f r' == f r)) from rfl]
      exact List.Sublist.cons₂ r ((ih _).trans (List.filter_sublist _))

theorem dropDupFuel_map_nodup (f : List Cell → Cell) :
    ∀ (fu : Nat) (l : List (List Cell)), l.length ≤ fu →
      ((dropDupFuel f fu l).map f).Nodup := by
  intro fu
  induction fu with
  | zero =>
    intro l hl
    have hnil : l = [] := List.eq_nil_of_length_eq_zero (by omega)
    subst hnil
    rw [show dropDupFuel f 0 ([] : List (List Cell)) = [] from rfl]
    exact List.nodup_nil
  | succ fu ih =>
    intro l hl
    cases l with
    | nil =>
      rw [show dropDupFuel f (fu + 1) ([] : List (List Cell)) = [] from rfl]
      exact List.nodup_nil
    | cons r rs =>
      rw [show dropDupFuel f (fu + 1) (r :: rs) =
          r :: dropDupFuel f fu (rs.filter fun r' => !(f r' == f r)) from rfl]
      rw [List.map_cons, List.nodup_cons]
      constructor
      · intro hmem
        obtain ⟨r', hr', hfr⟩ := List.mem_map.mp hmem
        have hr'' : r' ∈ rs.filter (fun r' => !(f r' == f r)) :=
          (dropDupFuel_sublist f fu _).subset hr'
        have hne := (List.mem_filter.mp hr'').2
        rw [Bool.not_eq_true', beq_eq_false_iff_ne] at hne
        exact hne hfr
      · apply ih
        have hfl := List.length_filter_le (fun r' => !(f r' == f r)) rs
        simp only [List.length_cons] at hl
        omega

/-- **C2**: after phase 1 (coalescing on the include-source fingerprint
`CrossKey`) and phase 2 (dropping duplicates of the content-only fingerprint
`IntraKey`, keeping the first), no two surviving rows share a `CrossKey`
value and no two surviving rows share an `IntraKey` value. -/
theorem C2_two_phase_dedup (t t1 t2 : Table)
    (h1 : coalesce_duplicates "CrossKey" t = some t1)
    (h2 : remove_duplicates "IntraKey" t1 = some t2) :
    (t2.rows.map (fun r => getCell t2.cols r "CrossKey")).Nodup ∧
    (t2.rows.map (fun r => getCell t2.cols r "IntraKey")).Nodup := by
  unfold remove_duplicates at h2
  by_cases hany : t1.cols.any (fun c => c.name == "IntraKey")
  · rw [if_pos hany] at h2
    injection h2 with h2
    have hcols : t2.cols = t1.cols := by rw [← h2]
    have hrows : t2.rows =
        dropDupFuel (fun r => getCell t1.cols r "IntraKey") t1.rows.length t1.rows := by
      rw [← h2]
    rw [hcols, hrows]
    constructor
    · have hsub := (dropDupFuel_sublist
        (fun r => getCell t1.cols r "IntraKey") t1.rows.length t1.rows).map
          (fun r => getCell t1.cols r "CrossKey")
      apply List.Nodup.sublist hsub
      obtain ⟨kflag, hc1, hr1⟩ := coalesce_some_elim h1
      rw [hc1, hr1, coalesce_out_keys]
      exact keyvals_nodup t "CrossKey"
    · exact dropDupFuel_map_nodup _ _ _ le_rfl
  · rw [if_neg hany] at h2
    cases h2

/-- Witness for `C2_two_phase_dedup` at a concrete two-row frame whose rows
coincide. -/
theorem C2_two_phase_dedup_witness :
    ((⟨[⟨"CrossKey", false⟩, ⟨"IntraKey", false⟩],
        [[Cell.str "a", Cell.str "x"]]⟩ : Table).rows.map
      (fun r => getCell [⟨"CrossKey", false⟩, ⟨"IntraKey", false⟩] r "CrossKey")).Nodup ∧
    ((⟨[⟨"CrossKey", false⟩, ⟨"IntraKey", false⟩],
        [[Cell.str "a", Cell.str "x"]]⟩ : Table).rows.map
      (fun r => getCell [⟨"CrossKey", false⟩, ⟨"IntraKey", false⟩] r "IntraKey")).Nodup :=
  C2_two_phase_dedup
    ⟨[⟨"CrossKey", false⟩, ⟨"IntraKey", false⟩],
     [[Cell.str "a", Cell.str "x"], [Cell.str "a", Cell.str "x"]]⟩
    ⟨[⟨"CrossKey", false⟩, ⟨"IntraKey", false⟩], [[Cell.str "a", Cell.str "x"]]⟩
    ⟨[⟨"CrossKey", false⟩, ⟨"IntraKey", false⟩], [[Cell.str "a", Cell.str "x"]]⟩
    (by decide) (by decide)

/-- Witness for `C1_coalesce_sum`: summing the two-row partition of key
`"k"` gives `2 + 3 = 5` in the single surviving row. -/
theorem C1_coalesce_sum_witness :
    getCell [⟨"CrossKey", false⟩, ⟨"Amount", true⟩]
        [Cell.str "k", Cell.num (mkRat 5 1)] "Amount" =
      Cell.num (sumCells (((⟨[⟨"CrossKey", false⟩, ⟨"Amount", true⟩],
          [[Cell.str "k", Cell.num (mkRat 2 1)],
           [Cell.str "k", Cell.num (mkRat 3 1)]]⟩ : Table).rows.filter
            (fun r => getCell [⟨"CrossKey", false⟩, ⟨"Amount", true⟩] r "CrossKey" ==
              Cell.str "k")).map
        (fun r => getCell [⟨"CrossKey", false⟩, ⟨"Amount", true⟩] r "Amount"))) :=
  (C1_coalesce_sum
    ⟨[⟨"CrossKey", false⟩, ⟨"Amount", true⟩],
     [[Cell.str "k", Cell.num (mkRat 2 1)], [Cell.str "k", Cell.num (mkRat 3 1)]]⟩
    ⟨[⟨"CrossKey", false⟩, ⟨"Amount", true⟩], [[Cell.str "k", Cell.num (mkRat 5 1)]]⟩
    "CrossKey" (by decide) (by decide)).2.2
    (Cell.str "k") [Cell.str "k", Cell.num (mkRat 5 1)] (by decide) (by decide)
    ⟨"Amount", true⟩ (by decide) (by decide) (by decide)

theorem sortCols_idem (l : List Col) : sortCols (sortCols l) = sortCols l :=
  List.Sorted.insertionSort_eq (List.sorted_insertionSort _ _)

theorem sortCells_idem (l : List Cell) : sortCells (sortCells l) = sortCells l :=
  List.Sorted.insertionSort_eq (List.sorted_insertionSort _ _)

theorem sumCells_singleton (q : Rat) : sumCells [Cell.num q] = q := by
  show ratAdd (cellToRat (Cell.num q)) 0 = q
  rw [ratAdd_eq_add]
  simp [cellToRat]

theorem filter_beq_of_nodup {l : List Cell} (hnd : l.Nodup) {v : Cell} (hv : v ∈ l) :
    l.filter (fun w => w == v) = [v] := by
  induction l with
  | nil => cases hv
  | cons a l ih =>
    by_cases hav : a = v
    · subst hav
      have hnil : l.filter (fun w => w == a) = [] := by
        rw [List.filter_eq_nil_iff]
        intro w hw
        simp only [beq_iff_eq]
        intro h
        subst h
        exact (List.nodup_cons.mp hnd).1 hw
      rw [List.filter_cons, if_pos (by simp), hnil]
    · have hmem : v ∈ l := by
        rcases List.mem_cons.mp hv with h | h
        · exact absurd h.symm hav
        · exact h
      rw [List.filter_cons, if_neg (by simp [hav])]
      exact ih (List.nodup_cons.mp hnd).2 hmem

/-- **C7**: coalescing by a key and then coalescing the result again by the
same key returns the once-coalesced table unchanged (idempotence of phase
1): the singleton partitions re-aggregate to themselves and the key order
and column blocks are already sorted. -/
theorem C7_coalesce_idempotent (t t' : Table) (key : String)
    (hnd : (t.cols.map Col.name).Nodup)
    (hco : coalesce_duplicates key t = some t') :
    coalesce_duplicates key t' = some t' := by
  obtain ⟨kflag, hcols, hrows⟩ := coalesce_some_elim hco
  have hfind : t'.cols.find? (fun c => c.name == key) = some ⟨key, kflag⟩ := by
    rw [hcols]
    exact List.find?_cons_of_pos _ (by simp)
  have hN : ncolsOf t' key = ncolsOf t key := by
    show sortCols (t'.cols.filter (fun c => c.isNum && !(c.name == key))) = _
    rw [hcols,
      show outColsOf t key kflag =
        ⟨key, kflag⟩ :: (ncolsOf t key ++ ocolsOf t key) from rfl,
      List.filter_cons, if_neg (by simp), List.filter_append,
      List.filter_eq_self.mpr (fun c hc => by
        obtain ⟨-, h1, h2⟩ := mem_ncolsOf.mp hc
        simp [h1, h2]),
      List.filter_eq_nil_iff.mpr (fun c hc => by
        obtain ⟨-, h1, -⟩ := mem_ocolsOf.mp hc
        simp [h1]),
      List.append_nil]
    exact sortCols_idem _
  have hO : ocolsOf t' key = ocolsOf t key := by
    show sortCols (t'.cols.filter (fun c => !c.isNum && !(c.name == key))) = _
    rw [hcols,
      show outColsOf t key kflag =
        ⟨key, kflag⟩ :: (ncolsOf t key ++ ocolsOf t key) from rfl,
      List.filter_cons, if_neg (by simp), List.filter_append,
      List.filter_eq_nil_iff.mpr (fun c hc => by
        obtain ⟨-, h1, -⟩ := mem_ncolsOf.mp hc
        simp [h1]),
      List.filter_eq_self.mpr (fun c hc => by
        obtain ⟨-, h1, h2⟩ := mem_ocolsOf.mp hc
        simp [h1, h2]),
      List.nil_append]
    exact sortCols_idem _
  have hkv : keyvalsOf t' key = keyvalsOf t key := by
    have h1 : t'.rows.map (fun r => getCell t'.cols r key) = keyvalsOf t key := by
      rw [hrows, hcols]
      exact coalesce_out_keys t key kflag
    show sortCells (t'.rows.map (fun r => getCell t'.cols r key)).dedup = _
    rw [h1, List.dedup_eq_self.mpr (keyvals_nodup t key)]
    show sortCells (sortCells _) = _
    exact sortCells_idem _
  have hgrp : ∀ v ∈ keyvalsOf t key, grpOf t' key v = [outRowOf t key v] := by
    intro v hv
    show t'.rows.filter (fun r => getCell t'.cols r key == v) = _
    rw [hrows, List.filter_map,
      List.filter_congr (fun w hw => by
        show (getCell t'.cols (outRowOf t key w) key == v) = (w == v)
        rw [hcols, getCell_outRow_key]),
      filter_beq_of_nodup (keyvals_nodup t key) hv, List.map_cons, List.map_nil]
  have hout : ∀ v ∈ keyvalsOf t key, outRowOf t' key v = outRowOf t key v := by
    intro v hv
    show v :: ((ncolsOf t' key).map _ ++ (ocolsOf t' key).map _) =
      v :: ((ncolsOf t key).map _ ++ (ocolsOf t key).map _)
    rw [hN, hO]
    congr 1
    congr 1
    · apply List.map_congr_left
      intro c hc
      rw [hgrp v hv, List.map_cons, List.map_nil, hcols,
        getCell_outRow_ncol t key kflag hnd hc, sumCells_singleton]
    · apply List.map_congr_left
      intro c hc
      rw [hgrp v hv, List.map_cons, List.map_nil, hcols,
        getCell_outRow_ocol t key kflag hnd hc]
      rfl
  have hrows2 : (keyvalsOf t' key).map (outRowOf t' key) = t'.rows := by
    rw [hkv, hrows]
    exact List.map_congr_left hout
  have hcols2 : outColsOf t' key kflag = t'.cols := by
    show ⟨key, kflag⟩ :: (ncolsOf t' key ++ ocolsOf t' key) = t'.cols
    rw [hN, hO, hcols]
    rfl
  unfold coalesce_duplicates
  rw [hfind]
  show some ⟨outColsOf t' key kflag, (keyvalsOf t' key).map (outRowOf t' key)⟩ = some t'
  rw [hcols2, hrows2]

/-- Witness for `C7_coalesce_idempotent`: re-coalescing the coalesced
two-row frame is the identity. -/
theorem C7_coalesce_idempotent_witness :
    coalesce_duplicates "CrossKey"
      ⟨[⟨"CrossKey", false⟩, ⟨"Amount", true⟩],
       [[Cell.str "k", Cell.num (mkRat 5 1)]]⟩ =
    some ⟨[⟨"CrossKey", false⟩, ⟨"Amount", true⟩],
          [[Cell.str "k", Cell.num (mkRat 5 1)]]⟩ :=
  C7_coalesce_idempotent
    ⟨[⟨"CrossKey", false⟩, ⟨"Amount", true⟩],
     [[Cell.str "k", Cell.num (mkRat 2 1)], [Cell.str "k", Cell.num (mkRat 3 1)]]⟩
    ⟨[⟨"CrossKey", false⟩, ⟨"Amount", true⟩], [[Cell.str "k", Cell.num (mkRat 5 1)]]⟩
    "CrossKey" (by decide) (by decide)
